import Mathlib

/-!
# HashSet.hpp: a separately chained hash set

A shallow embedding of `src/HashSet.hpp` and the properties of its operations.

Modelling conventions.

* A chain (the linked list hanging off one array cell) is a `List` of elements in
  list order, head first; a null cell is the empty list.  The array `arr` is a
  `List` of chains; the moved-from `nullptr` is the empty array.
* `unsigned int` is 32 bits wide: `currentSize++` is taken modulo `2 ^ 32`.
  `int` is 32 bits wide.
* Operations whose C++ behaviour is undefined return `none`: the remainder by
  a zero capacity, a read or write outside the array, the overflow of an `int`
  counter, the read of an indeterminate pointer and the read of a released node.
* The constructor's `new Node * [DEFAULT_CAPACITY]()` gives null cells.  The
  resize in `add` and the copy constructor write `new Node * [n]` without the
  initialiser `()`, so the cells of their arrays are indeterminate until written.
  The resize reads such a cell for the first node it rehashes, and its release
  loop reads `p->next` after `delete p`: the resize is undefined, and `add`
  returns `none` when it reaches it.  The copy constructor writes cell 0 alone;
  the other cells of the copy are shown as null cells and nothing stated about a
  copy reads them.
* `float` is IEEE-754 binary32 with round-to-nearest-even, `double` is binary64,
  and a `float` expression is evaluated in binary32 (`FLT_EVAL_METHOD` 0); the
  values are kept as exact rationals.
* Node sharing between two objects (the copy constructor) is shown on a second
  model that keeps the nodes on a heap; see `HeapHashSet`.
* `ElementType`'s `==` is decidable equality, and the hash function is a total
  function to the naturals (the values of an `unsigned int`).
-/

namespace HashSetModel

/-! ## Machine numbers -/

/-- Wrap-around of an `unsigned int` (32 bits). -/
def u32 (n : Nat) : Nat := n % 2 ^ 32

/-- The largest value of an `int` (32 bits). -/
def INT_MAX : Nat := 2 ^ 31 - 1

/-- Rounding of a rational to the nearest integer, ties going to the even one. -/
def roundHalfEven (x : ℚ) : ℤ :=
  let f := ⌊x⌋
  if x - f < 1 / 2 then f
  else if 1 / 2 < x - f then f + 1
  else if f % 2 = 0 then f
  else f + 1

/-- The unit in the last place of the binary32 numbers around `x`: with
`2 ^ e ≤ |x| < 2 ^ (e + 1)` it is `2 ^ (e - 23)` (24 significant bits). -/
def ulp (x : ℚ) : ℚ := (2 : ℚ) ^ (Int.log 2 |x| - 23)

/-- Rounding of a rational to binary32, round-to-nearest-even.  It is the IEEE
rounding on the normal range `2 ^ (-126) ≤ |x| < 2 ^ 128`; the quotients of two
`unsigned int` values lie well inside that range. -/
def toFloat (x : ℚ) : ℚ := (roundHalfEven (x / ulp x) : ℚ) * ulp x

/-- The conversion `(float)n` of an `unsigned int`. -/
def floatOfUnsigned (n : Nat) : ℚ := toFloat (n : ℚ)

/-- The `float` division `a / b`. -/
def floatDiv (a b : ℚ) : ℚ := toFloat (a / b)

/-- The `double` literal `0.8`: the binary64 number nearest to 4/5, which is
`0x3FE999999999999A = 7205759403792794 / 2 ^ 53`. -/
def DOUBLE_0_8 : ℚ := 3602879701896397 / 4503599627370496

/-- The test `((float)currentSize / (float)currentCapacity) > 0.8` of `add`:
the `float` quotient is widened to `double` (exactly) and compared with the
`double` literal. -/
def loadFactorExceeded (currentSize currentCapacity : Nat) : Bool :=
  decide (DOUBLE_0_8 < floatDiv (floatOfUnsigned currentSize) (floatOfUnsigned currentCapacity))

/-! ## The table -/

/-- The value of `DEFAULT_CAPACITY`. -/
def DEFAULT_CAPACITY : Nat := 10

/-- The data members of `HashSet<ElementType>`. -/
structure HashSet (α : Type) where
  /-- The member `hashFunction`. -/
  hashFunction : α → Nat
  /-- The member `currentSize`. -/
  currentSize : Nat
  /-- The member `currentCapacity`. -/
  currentCapacity : Nat
  /-- The member `arr`: one chain per array cell. -/
  arr : List (List α)

variable {α : Type}

/-- The function `impl_::HashSet__undefinedHashFunction`. -/
def undefinedHashFunction (_element : α) : Nat := 0

/-- The constructor `HashSet(HashFunction hashFunction)`. -/
def construct (hashFunction : α → Nat) : HashSet α :=
  { hashFunction := hashFunction
    currentSize := 0
    currentCapacity := DEFAULT_CAPACITY
    arr := List.replicate DEFAULT_CAPACITY [] }

/-- The member function `addHelper`: the element goes to the end of the chain of
its cell (it becomes the chain when the cell is null).  No comparison with the
elements of the chain is made. -/
def addHelper (t : HashSet α) (element : α) : Option (HashSet α) :=
  if t.currentCapacity = 0 then none
  else
    let index := t.hashFunction element % t.currentCapacity
    match t.arr[index]? with
    | none => none
    | some [] => some { t with arr := t.arr.set index [element] }
    | some (p :: ps) => some { t with arr := t.arr.set index ((p :: ps) ++ [element]) }

/-- The member function `add`: `addHelper`, then `currentSize++`, then the test of
the load factor (line 254).  When the test fails the function returns.  When it
succeeds the function resizes (lines 256-289), and the resize is undefined:
`addHelper` has just stored a node in the old array, the rehash loop hands that
node to `addHelper` on the array `new Node * [newCapacity]` (line 261, no
initialiser, unlike line 140), no cell of which has been written, so the test
`arr[index] == nullptr` reads an indeterminate pointer; the release loop
(lines 280-287) then reads `p->next` after `delete p`. -/
def add (t : HashSet α) (element : α) : Option (HashSet α) :=
  (addHelper t element).bind fun t1 =>
    let t2 : HashSet α := { t1 with currentSize := u32 (t1.currentSize + 1) }
    if loadFactorExceeded t2.currentSize t2.currentCapacity then none
    else some t2

/-- The member function `contains`. -/
def contains [DecidableEq α] (t : HashSet α) (element : α) : Option Bool :=
  if t.currentCapacity = 0 then none
  else
    let index := t.hashFunction element % t.currentCapacity
    match t.arr[index]? with
    | none => none
    | some [] => some false
    | some (p :: ps) => some ((p :: ps).elem element)

/-- The member function `size`. -/
def size (t : HashSet α) : Nat := t.currentSize

/-- The member function `elementsAtIndex`; `count` is an `int`. -/
def elementsAtIndex (t : HashSet α) (index : Nat) : Option Nat :=
  if index ≥ t.currentCapacity then some 0
  else
    match t.arr[index]? with
    | none => none
    | some chain => if INT_MAX < chain.length then none else some chain.length

/-- The member function `isElementAtIndex`. -/
def isElementAtIndex [DecidableEq α] (t : HashSet α) (element : α) (index : Nat) : Option Bool :=
  if index ≥ t.currentCapacity then some false
  else
    match t.arr[index]? with
    | none => none
    | some chain => some (chain.elem element)

/-- The copy constructor `HashSet(const HashSet& s)`: the hash function is
`HashSet__undefinedHashFunction`, the array is a fresh one of `s.currentCapacity`
cells, and `*arr = *s.arr` copies cell 0 alone. -/
def copyConstruct (s : HashSet α) : Option (HashSet α) :=
  match s.arr with
  | [] => none
  | head :: _ =>
    if s.currentCapacity = 0 then none
    else
      some
        { hashFunction := undefinedHashFunction
          currentSize := s.currentSize
          currentCapacity := s.currentCapacity
          arr := (List.replicate s.currentCapacity ([] : List α)).set 0 head }

/-- A run of `add` calls, in order, from a given table. -/
def addAll (t : HashSet α) : List α → Option (HashSet α)
  | [] => some t
  | x :: xs => (add t x).bind (fun t1 => addAll t1 xs)

/-! ## Invariants -/

/-- The array has one cell per unit of capacity, the capacity is not zero, and
every element sits in the chain of the cell its hash value selects. -/
structure Placed (t : HashSet α) : Prop where
  len : t.arr.length = t.currentCapacity
  pos : t.currentCapacity ≠ 0
  place : ∀ i chain, t.arr[i]? = some chain →
    ∀ e ∈ chain, t.hashFunction e % t.currentCapacity = i

/-- Two tables with the same hash function, size and capacity. -/
structure SameFrame (t t1 : HashSet α) : Prop where
  hash : t1.hashFunction = t.hashFunction
  size : t1.currentSize = t.currentSize
  cap : t1.currentCapacity = t.currentCapacity

/-- The invariant of the tables built by `add` calls from a fresh table with
hash function `h`, after the elements `ys` have been added: no `add` that returns
has resized, so the capacity is still `DEFAULT_CAPACITY`. -/
structure Inv (h : α → Nat) (ys : List α) (t : HashSet α) : Prop where
  placed : Placed t
  hash : t.hashFunction = h
  cap : t.currentCapacity = DEFAULT_CAPACITY
  perm : t.arr.flatten.Perm ys
  size : t.currentSize = ys.length
  load : 5 * t.currentSize < 4 * t.currentCapacity

/-! ## Move operations -/

/-- The move constructor `HashSet(HashSet&& s)`: the new object starts from
`HashSet__undefinedHashFunction`, size 0, capacity 0 and a null array, and then
exchanges array, size and capacity with `s`.  The result is the new object and
the source after the move. -/
def moveConstruct (s : HashSet α) : HashSet α × HashSet α :=
  ({ hashFunction := undefinedHashFunction
     currentSize := s.currentSize
     currentCapacity := s.currentCapacity
     arr := s.arr },
   { hashFunction := s.hashFunction
     currentSize := 0
     currentCapacity := 0
     arr := [] })

/-- A `Node`: the element and the `next` pointer (`none` is `nullptr`). -/
structure Node (α : Type) where
  /-- The member `element`. -/
  element : α
  /-- The member `next`. -/
  next : Option Nat

/-- The data members of a `HashSet<ElementType>` whose nodes live on a heap; a
cell of `arr` is the address of the head node or `none` for `nullptr`. -/
structure HeapHashSet (α : Type) where
  /-- The member `hashFunction`. -/
  hashFunction : α → Nat
  /-- The member `currentSize`. -/
  currentSize : Nat
  /-- The member `currentCapacity`. -/
  currentCapacity : Nat
  /-- The member `arr`. -/
  arr : List (Option Nat)

/-- The constructor `HashSet(HashFunction hashFunction)`, on the heap model. -/
def constructH (hashFunction : α → Nat) : HeapHashSet α :=
  { hashFunction := hashFunction
    currentSize := 0
    currentCapacity := DEFAULT_CAPACITY
    arr := List.replicate DEFAULT_CAPACITY none }

/-- The loop `while (p->next != nullptr) p = p->next;` of `addHelper`: the
address of the last node of the chain that starts at `p`.  The fuel bounds the
number of steps (a chain without a cycle has at most as many nodes as the heap). -/
def lastNode (heap : List (Node α)) : Nat → Nat → Option Nat
  | 0, _ => none
  | fuel + 1, p =>
    match heap[p]? with
    | none => none
    | some node =>
      match node.next with
      | none => some p
      | some q => lastNode heap fuel q

/-- The member function `addHelper` on the heap model: `new Node(element)` takes
the next free address; it becomes the head of a null cell, and otherwise the
`next` of the last node of the chain. -/
def addHelperH (heap : List (Node α)) (t : HeapHashSet α) (element : α) :
    Option (List (Node α) × HeapHashSet α) :=
  if t.currentCapacity = 0 then none
  else
    let index := t.hashFunction element % t.currentCapacity
    match t.arr[index]? with
    | none => none
    | some none =>
      some (heap ++ [{ element := element, next := none }],
        { t with arr := t.arr.set index (some heap.length) })
    | some (some head) =>
      match lastNode heap (heap.length + 1) head with
      | none => none
      | some p =>
        match heap[p]? with
        | none => none
        | some node =>
          some ((heap.set p { node with next := some heap.length }) ++
            [{ element := element, next := none }], t)

/-- The member function `add` on the heap model; the resize is undefined as in
`add`. -/
def addH (heap : List (Node α)) (t : HeapHashSet α) (element : α) :
    Option (List (Node α) × HeapHashSet α) :=
  (addHelperH heap t element).bind fun r =>
    let t2 : HeapHashSet α := { r.2 with currentSize := u32 (r.2.currentSize + 1) }
    if loadFactorExceeded t2.currentSize t2.currentCapacity then none
    else some (r.1, t2)

/-- The elements of the chain that starts at `p`, head first. -/
def chainElements (heap : List (Node α)) : Nat → Option Nat → Option (List α)
  | _, none => some []
  | 0, some _ => none
  | fuel + 1, some p =>
    match heap[p]? with
    | none => none
    | some node => (chainElements heap fuel node.next).map (fun rest => node.element :: rest)

/-- The member function `contains` on the heap model. -/
def containsH [DecidableEq α] (heap : List (Node α)) (t : HeapHashSet α) (element : α) :
    Option Bool :=
  if t.currentCapacity = 0 then none
  else
    let index := t.hashFunction element % t.currentCapacity
    match t.arr[index]? with
    | none => none
    | some head => (chainElements heap (heap.length + 1) head).map (fun chain => chain.elem element)

/-- The member function `elementsAtIndex` on the heap model. -/
def elementsAtIndexH (heap : List (Node α)) (t : HeapHashSet α) (index : Nat) : Option Nat :=
  if index ≥ t.currentCapacity then some 0
  else
    match t.arr[index]? with
    | none => none
    | some head =>
      (chainElements heap (heap.length + 1) head).bind
        (fun chain => if INT_MAX < chain.length then none else some chain.length)

/-- The copy constructor `HashSet(const HashSet& s)` on the heap model: the array
is a fresh one of `s.currentCapacity` cells and `*arr = *s.arr` stores the head
address of cell 0 of `s` in cell 0 of the copy; no node is allocated. -/
def copyConstructH (s : HeapHashSet α) : Option (HeapHashSet α) :=
  match s.arr with
  | [] => none
  | head :: _ =>
    if s.currentCapacity = 0 then none
    else
      some
        { hashFunction := undefinedHashFunction
          currentSize := s.currentSize
          currentCapacity := s.currentCapacity
          arr := (List.replicate s.currentCapacity (none : Option Nat)).set 0 head }

/-- A run of `add` calls, in order, on the heap model. -/
def addAllH (heap : List (Node α)) (t : HeapHashSet α) : List α →
    Option (List (Node α) × HeapHashSet α)
  | [] => some (heap, t)
  | x :: xs => (addH heap t x).bind (fun r => addAllH r.1 r.2 xs)

/-- The chains that a table on the heap stands for: every cell of an array of
head addresses replaced by the elements of its chain. -/
def chainsOf (heap : List (Node α)) : List (Option Nat) → Option (List (List α))
  | [] => some []
  | head :: rest =>
    (chainElements heap (heap.length + 1) head).bind
      (fun chain => (chainsOf heap rest).map (fun chains => chain :: chains))

/-! ## Rounding to binary32 -/

theorem roundHalfEven_floor_le (x : ℚ) : ⌊x⌋ ≤ roundHalfEven x := by
  unfold roundHalfEven
  simp only
  split_ifs <;> omega

theorem roundHalfEven_le_floor_succ (x : ℚ) : roundHalfEven x ≤ ⌊x⌋ + 1 := by
  unfold roundHalfEven
  simp only
  split_ifs <;> omega

theorem roundHalfEven_intCast (n : ℤ) : roundHalfEven (n : ℚ) = n := by
  unfold roundHalfEven
  simp

theorem roundHalfEven_mono {x y : ℚ} (h : x ≤ y) : roundHalfEven x ≤ roundHalfEven y := by
  have hf : ⌊x⌋ ≤ ⌊y⌋ := Int.floor_mono h
  rcases hf.eq_or_lt with heq | hlt
  · unfold roundHalfEven
    simp only
    rw [heq]
    have : x - (⌊y⌋ : ℚ) ≤ y - (⌊y⌋ : ℚ) := by linarith
    split_ifs <;> first | omega | (exfalso; linarith)
  · calc roundHalfEven x ≤ ⌊x⌋ + 1 := roundHalfEven_le_floor_succ x
      _ ≤ ⌊y⌋ := hlt
      _ ≤ roundHalfEven y := roundHalfEven_floor_le y

theorem ulp_pos (x : ℚ) : 0 < ulp x := by
  unfold ulp
  positivity

theorem log_eq_of_bounds {x : ℚ} {e : ℤ} (h1 : (2 : ℚ) ^ e ≤ x) (h2 : x < (2 : ℚ) ^ (e + 1)) :
    Int.log 2 x = e := by
  have hx : 0 < x := lt_of_lt_of_le (by positivity) h1
  have a : e ≤ Int.log 2 x := (Int.zpow_le_iff_le_log (by norm_num) hx).mp (by exact_mod_cast h1)
  have b : Int.log 2 x < e + 1 := (Int.lt_zpow_iff_log_lt (by norm_num) hx).mp (by exact_mod_cast h2)
  omega

theorem ulp_eq_of_bounds {x : ℚ} {e : ℤ} (h1 : (2 : ℚ) ^ e ≤ x) (h2 : x < (2 : ℚ) ^ (e + 1)) :
    ulp x = (2 : ℚ) ^ (e - 23) := by
  have hx : 0 < x := lt_of_lt_of_le (by positivity) h1
  unfold ulp
  rw [abs_of_pos hx, log_eq_of_bounds h1 h2]

theorem toFloat_eq_of_bounds {x : ℚ} {e : ℤ} (h1 : (2 : ℚ) ^ e ≤ x) (h2 : x < (2 : ℚ) ^ (e + 1)) :
    toFloat x = (roundHalfEven (x / (2 : ℚ) ^ (e - 23)) : ℚ) * (2 : ℚ) ^ (e - 23) := by
  unfold toFloat
  rw [ulp_eq_of_bounds h1 h2]

theorem log_bounds {x : ℚ} (hx : 0 < x) :
    (2 : ℚ) ^ Int.log 2 x ≤ x ∧ x < (2 : ℚ) ^ (Int.log 2 x + 1) := by
  constructor
  · exact_mod_cast Int.zpow_log_le_self (by norm_num : 1 < 2) hx
  · exact_mod_cast Int.lt_zpow_succ_log_self (by norm_num : 1 < 2) x

theorem toFloat_zero : toFloat 0 = 0 := by
  unfold toFloat
  simp [roundHalfEven]

/-- A positive number rounds into the closure of its own binade. -/
theorem toFloat_binade {x : ℚ} {e : ℤ} (h1 : (2 : ℚ) ^ e ≤ x) (h2 : x < (2 : ℚ) ^ (e + 1)) :
    (2 : ℚ) ^ e ≤ toFloat x ∧ toFloat x ≤ (2 : ℚ) ^ (e + 1) := by
  rw [toFloat_eq_of_bounds h1 h2]
  have hu : (0 : ℚ) < (2 : ℚ) ^ (e - 23) := by positivity
  have e1 : (2 : ℚ) ^ e = ((2 ^ 23 : ℤ) : ℚ) * (2 : ℚ) ^ (e - 23) := by
    rw [zpow_sub₀ (by norm_num)]; push_cast; field_simp; ring
  have e2 : (2 : ℚ) ^ (e + 1) = ((2 ^ 24 : ℤ) : ℚ) * (2 : ℚ) ^ (e - 23) := by
    rw [zpow_sub₀ (by norm_num), zpow_add₀ (by norm_num)]; push_cast; field_simp; ring
  have l1 : ((2 ^ 23 : ℤ) : ℚ) ≤ x / (2 : ℚ) ^ (e - 23) := by
    rw [le_div_iff₀ hu, ← e1]; exact h1
  have l2 : x / (2 : ℚ) ^ (e - 23) ≤ ((2 ^ 24 : ℤ) : ℚ) := by
    rw [div_le_iff₀ hu, ← e2]; exact h2.le
  have r1 := roundHalfEven_mono l1
  have r2 := roundHalfEven_mono l2
  rw [roundHalfEven_intCast] at r1 r2
  constructor
  · rw [e1]
    exact mul_le_mul_of_nonneg_right (by exact_mod_cast r1) hu.le
  · rw [e2]
    exact mul_le_mul_of_nonneg_right (by exact_mod_cast r2) hu.le

theorem toFloat_mono {x y : ℚ} (hx : 0 ≤ x) (h : x ≤ y) : toFloat x ≤ toFloat y := by
  rcases hx.eq_or_lt with h0 | hpos
  · subst h0
    rw [toFloat_zero]
    rcases h.eq_or_lt with h0 | hy
    · rw [← h0, toFloat_zero]
    · exact le_trans (by positivity) (toFloat_binade (log_bounds hy).1 (log_bounds hy).2).1
  · have hy : 0 < y := lt_of_lt_of_le hpos h
    obtain ⟨x1, x2⟩ := log_bounds hpos
    obtain ⟨y1, y2⟩ := log_bounds hy
    have hl : Int.log 2 x ≤ Int.log 2 y := Int.log_mono_right hpos h
    rcases hl.eq_or_lt with heq | hlt
    · rw [toFloat_eq_of_bounds x1 x2, toFloat_eq_of_bounds y1 y2, heq]
      have hu : (0 : ℚ) < (2 : ℚ) ^ (Int.log 2 y - 23) := by positivity
      apply mul_le_mul_of_nonneg_right _ hu.le
      have : x / (2 : ℚ) ^ (Int.log 2 y - 23) ≤ y / (2 : ℚ) ^ (Int.log 2 y - 23) :=
        div_le_div_of_nonneg_right h hu.le
      exact_mod_cast roundHalfEven_mono this
    · calc toFloat x ≤ (2 : ℚ) ^ (Int.log 2 x + 1) := (toFloat_binade x1 x2).2
        _ ≤ (2 : ℚ) ^ Int.log 2 y := zpow_le_zpow_right₀ (by norm_num) (by omega)
        _ ≤ toFloat y := (toFloat_binade y1 y2).1

theorem roundHalfEven_eq_of_near {x : ℚ} {n : ℤ} (h1 : (n : ℚ) - 1 / 2 < x) (h2 : x < (n : ℚ) + 1 / 2) :
    roundHalfEven x = n := by
  have hfl : (⌊x⌋ : ℚ) ≤ x := Int.floor_le x
  have hfu : x < (⌊x⌋ : ℚ) + 1 := Int.lt_floor_add_one x
  have ha : n ≤ ⌊x⌋ + 1 := by
    have : (n : ℚ) < ((⌊x⌋ + 2 : ℤ) : ℚ) := by push_cast; linarith
    have := Int.cast_lt.mp this
    omega
  have hb : ⌊x⌋ ≤ n := by
    have : ((⌊x⌋ : ℤ) : ℚ) < ((n + 1 : ℤ) : ℚ) := by push_cast; linarith
    have := Int.cast_lt.mp this
    omega
  unfold roundHalfEven
  simp only
  rcases hb.eq_or_lt with heq | hlt
  · have hx : x - (⌊x⌋ : ℚ) < 1 / 2 := by rw [heq]; linarith
    rw [if_pos hx]; exact heq
  · have hn : n = ⌊x⌋ + 1 := by omega
    have hx : 1 / 2 < x - (⌊x⌋ : ℚ) := by
      have : (n : ℚ) = (⌊x⌋ : ℚ) + 1 := by rw [hn]; push_cast; ring
      linarith
    rw [if_neg (by linarith), if_pos hx]; omega

theorem toFloat_of_int_quot {x : ℚ} {e : ℤ} (h1 : (2 : ℚ) ^ e ≤ x) (h2 : x < (2 : ℚ) ^ (e + 1))
    (m : ℤ) (hm : x = (m : ℚ) * (2 : ℚ) ^ (e - 23)) : toFloat x = x := by
  rw [toFloat_eq_of_bounds h1 h2]
  have hu : (2 : ℚ) ^ (e - 23) ≠ 0 := by positivity
  have : x / (2 : ℚ) ^ (e - 23) = (m : ℚ) := by rw [hm]; field_simp
  rw [this, roundHalfEven_intCast, ← hm]

/-- A natural number below `2 ^ 24`, scaled by a power of two, is a binary32 number. -/
theorem toFloat_natCast_mul_zpow (n : ℕ) (hn : n < 2 ^ 24) (j : ℤ) :
    toFloat ((n : ℚ) * (2 : ℚ) ^ j) = (n : ℚ) * (2 : ℚ) ^ j := by
  rcases Nat.eq_zero_or_pos n with h0 | hpos
  · subst h0; simp [toFloat_zero]
  · have hl1 : 2 ^ Nat.log 2 n ≤ n := Nat.pow_log_le_self 2 (by omega)
    have hl2 : n < 2 ^ (Nat.log 2 n + 1) := Nat.lt_pow_succ_log_self (by norm_num) n
    have hl3 : Nat.log 2 n < 24 := Nat.log_lt_of_lt_pow (by omega) hn
    have hj : (0 : ℚ) < (2 : ℚ) ^ j := by positivity
    have b1 : (2 : ℚ) ^ ((Nat.log 2 n : ℤ) + j) ≤ (n : ℚ) * (2 : ℚ) ^ j := by
      rw [zpow_add₀ (by norm_num)]
      apply mul_le_mul_of_nonneg_right _ hj.le
      rw [zpow_natCast]; exact_mod_cast hl1
    have b2 : (n : ℚ) * (2 : ℚ) ^ j < (2 : ℚ) ^ ((Nat.log 2 n : ℤ) + j + 1) := by
      have : (Nat.log 2 n : ℤ) + j + 1 = ((Nat.log 2 n + 1 : ℕ) : ℤ) + j := by push_cast; ring
      rw [this, zpow_add₀ (by norm_num)]
      apply mul_lt_mul_of_pos_right _ hj
      rw [zpow_natCast]; exact_mod_cast hl2
    apply toFloat_of_int_quot b1 b2 ((n * 2 ^ (23 - Nat.log 2 n) : ℕ) : ℤ)
    have : (Nat.log 2 n : ℤ) + j - 23 = j - ((23 - Nat.log 2 n : ℕ) : ℤ) := by omega
    rw [this, zpow_sub₀ (by norm_num), zpow_natCast]
    push_cast
    field_simp
    ring

theorem toFloat_natCast (n : ℕ) (hn : n < 2 ^ 24) : toFloat (n : ℚ) = (n : ℚ) := by
  simpa using toFloat_natCast_mul_zpow n hn 0

/-- The binary32 number nearest to 4/5 is `0x3F4CCCCD = 13421773 / 2 ^ 24`, which is above 4/5. -/
theorem toFloat_four_fifths : toFloat (4 / 5) = 13421773 / 16777216 := by
  have h1 : (2 : ℚ) ^ (-1 : ℤ) ≤ 4 / 5 := by norm_num
  have h2 : (4 / 5 : ℚ) < (2 : ℚ) ^ ((-1 : ℤ) + 1) := by norm_num
  rw [toFloat_eq_of_bounds h1 h2]
  have hr : roundHalfEven ((4 / 5 : ℚ) / (2 : ℚ) ^ ((-1 : ℤ) - 23)) = 13421773 := by
    apply roundHalfEven_eq_of_near <;> norm_num
  rw [hr]
  norm_num

/-! ## The load-factor test -/

theorem floatDiv_gt_of_quot_ge {a b : ℚ} (h : 4 / 5 ≤ a / b) : DOUBLE_0_8 < floatDiv a b := by
  unfold floatDiv DOUBLE_0_8
  have := toFloat_mono (by norm_num) h
  rw [toFloat_four_fifths] at this
  exact lt_of_lt_of_le (by norm_num) this

theorem floatDiv_le_of_quot_le {a b : ℚ} (h0 : 0 ≤ a / b) (h : a / b ≤ 13421772 / 16777216) :
    ¬ DOUBLE_0_8 < floatDiv a b := by
  unfold floatDiv DOUBLE_0_8
  have hg : toFloat (13421772 / 16777216) = 13421772 / 16777216 := by
    have := toFloat_natCast_mul_zpow 13421772 (by norm_num) (-24)
    norm_num at this ⊢
    exact this
  have := toFloat_mono h0 h
  rw [hg] at this
  intro hlt
  have := lt_of_lt_of_le hlt this
  norm_num at this

theorem floatOfUnsigned_capacity (k : ℕ) :
    floatOfUnsigned (10 * 2 ^ k) = 10 * (2 : ℚ) ^ k := by
  unfold floatOfUnsigned
  have := toFloat_natCast_mul_zpow 10 (by norm_num) (k : ℤ)
  rw [zpow_natCast] at this
  push_cast
  exact_mod_cast this

/-- On a capacity `10 * 2 ^ k` the test of `add` succeeds as soon as the size
reaches four fifths of the capacity: at the ratio 0.8 itself, not only above it. -/
theorem loadFactorExceeded_of_le (s k : ℕ) (h : 4 * (10 * 2 ^ k) ≤ 5 * s) :
    loadFactorExceeded s (10 * 2 ^ k) = true := by
  unfold loadFactorExceeded
  rw [decide_eq_true_eq, floatOfUnsigned_capacity]
  apply floatDiv_gt_of_quot_ge
  have hp : (0 : ℚ) < 10 * (2 : ℚ) ^ k := by positivity
  rw [le_div_iff₀ hp]
  have ht : toFloat ((8 : ℕ) * (2 : ℚ) ^ (k : ℤ)) = (8 : ℕ) * (2 : ℚ) ^ (k : ℤ) :=
    toFloat_natCast_mul_zpow 8 (by norm_num) (k : ℤ)
  rw [zpow_natCast] at ht
  have hs : ((8 : ℕ) : ℚ) * (2 : ℚ) ^ k ≤ (s : ℚ) := by
    have : 8 * 2 ^ k ≤ s := by omega
    exact_mod_cast this
  have := toFloat_mono (by positivity) hs
  rw [ht] at this
  unfold floatOfUnsigned
  push_cast at this
  linarith

/-- On a capacity `10 * 2 ^ k` the test of `add` fails while the size is at most
`(2 ^ 24 - 1) / 2 ^ 24` of four fifths of the capacity. -/
theorem loadFactorExceeded_lower (s k : ℕ) (h : loadFactorExceeded s (10 * 2 ^ k) = true) :
    16777215 * 2 ^ k < s * 2 ^ 21 := by
  by_contra hcon
  rw [not_lt] at hcon
  unfold loadFactorExceeded at h
  rw [decide_eq_true_eq, floatOfUnsigned_capacity] at h
  have hp : (0 : ℚ) < 10 * (2 : ℚ) ^ k := by positivity
  have hw : toFloat ((16777215 : ℕ) * (2 : ℚ) ^ ((k : ℤ) - 21)) = (16777215 : ℕ) * (2 : ℚ) ^ ((k : ℤ) - 21) :=
    toFloat_natCast_mul_zpow 16777215 (by norm_num) ((k : ℤ) - 21)
  have he : (2 : ℚ) ^ ((k : ℤ) - 21) = (2 : ℚ) ^ k / 2 ^ 21 := by
    rw [zpow_sub₀ (by norm_num), zpow_natCast]; norm_num
  rw [he] at hw
  have hs : (s : ℚ) ≤ (16777215 : ℕ) * ((2 : ℚ) ^ k / 2 ^ 21) := by
    rw [← mul_div_assoc, le_div_iff₀ (by positivity)]
    exact_mod_cast hcon
  have hm := toFloat_mono (by positivity) hs
  rw [hw] at hm
  have hs0 : 0 ≤ toFloat (s : ℚ) := by
    have := toFloat_mono (le_refl 0) (by positivity : (0 : ℚ) ≤ (s : ℚ))
    rwa [toFloat_zero] at this
  refine floatDiv_le_of_quot_le (div_nonneg hs0 hp.le) ?_ h
  rw [div_le_iff₀ hp]
  push_cast at hm
  have h2 : (0 : ℚ) < (2 : ℚ) ^ k := by positivity
  calc toFloat (s : ℚ) ≤ 16777215 * ((2 : ℚ) ^ k / 2 ^ 21) := hm
    _ = 13421772 / 16777216 * (10 * (2 : ℚ) ^ k) := by ring

/-- For arrays of at most `2 ^ 22` cells the test of `add` is the comparison
`size / capacity ≥ 4/5`: it succeeds at the ratio 0.8 itself. -/
theorem loadFactorExceeded_small (s c : ℕ) (hc0 : 0 < c) (hc : c ≤ 2 ^ 22) (hs : s < 2 ^ 24) :
    loadFactorExceeded s c = decide (4 * c ≤ 5 * s) := by
  have hcq : (0 : ℚ) < (c : ℚ) := by exact_mod_cast hc0
  have e1 : floatOfUnsigned s = (s : ℚ) := toFloat_natCast s hs
  have e2 : floatOfUnsigned c = (c : ℚ) := toFloat_natCast c (by omega)
  unfold loadFactorExceeded
  rw [e1, e2]
  by_cases h : 4 * c ≤ 5 * s
  · rw [decide_eq_true h, decide_eq_true_eq]
    apply floatDiv_gt_of_quot_ge
    rw [le_div_iff₀ hcq]
    have : ((4 * c : ℕ) : ℚ) ≤ ((5 * s : ℕ) : ℚ) := by exact_mod_cast h
    push_cast at this
    linarith
  · rw [decide_eq_false h, decide_eq_false_iff_not]
    apply floatDiv_le_of_quot_le (by positivity)
    rw [div_le_iff₀ hcq]
    have h1 : ((5 * s + 1 : ℕ) : ℚ) ≤ ((4 * c : ℕ) : ℚ) := by
      have : 5 * s + 1 ≤ 4 * c := by omega
      exact_mod_cast this
    have h2 : (c : ℚ) ≤ 2 ^ 22 := by exact_mod_cast hc
    push_cast at h1
    linarith

/-! ## The array and its chains -/

theorem SameFrame.refl (t : HashSet α) : SameFrame t t := ⟨rfl, rfl, rfl⟩

theorem SameFrame.trans {t t1 t2 : HashSet α} (a : SameFrame t t1) (b : SameFrame t1 t2) :
    SameFrame t t2 :=
  ⟨b.hash.trans a.hash, b.size.trans a.size, b.cap.trans a.cap⟩

theorem addHelper_eq (t : HashSet α) (e : α) (chain : List α) (hc : t.currentCapacity ≠ 0)
    (hget : t.arr[t.hashFunction e % t.currentCapacity]? = some chain) :
    addHelper t e =
      some { t with arr := t.arr.set (t.hashFunction e % t.currentCapacity) (chain ++ [e]) } := by
  unfold addHelper
  rw [if_neg hc]
  simp only
  rw [hget]
  cases chain <;> rfl

theorem flatten_set_append (l : List (List α)) (i : Nat) (c : List α) (e : α)
    (h : l[i]? = some c) : (l.set i (c ++ [e])).flatten.Perm (l.flatten ++ [e]) := by
  obtain ⟨hi, hc⟩ := List.getElem?_eq_some.mp h
  have hl : l = List.take i l ++ c :: List.drop (i + 1) l := by
    rw [← hc, List.getElem_cons_drop, List.take_append_drop]
  rw [List.set_eq_take_cons_drop _ hi]
  conv_rhs => rw [hl]
  simp only [List.flatten_append, List.flatten_cons, List.append_assoc]
  apply List.Perm.append_left
  apply List.Perm.append_left
  rw [List.singleton_append]
  exact (List.perm_append_singleton e _).symm

theorem addHelper_placed (t : HashSet α) (e : α) (hp : Placed t) :
    ∃ t1 chain, t.arr[t.hashFunction e % t.currentCapacity]? = some chain ∧
      addHelper t e = some t1 ∧
      t1.arr = t.arr.set (t.hashFunction e % t.currentCapacity) (chain ++ [e]) ∧
      Placed t1 ∧ SameFrame t t1 ∧ t1.arr.flatten.Perm (t.arr.flatten ++ [e]) := by
  have hlt : t.hashFunction e % t.currentCapacity < t.arr.length := by
    rw [hp.len]; exact Nat.mod_lt _ (Nat.pos_of_ne_zero hp.pos)
  have hget := List.getElem?_eq_getElem hlt
  refine ⟨_, _, hget, addHelper_eq t e _ hp.pos hget, rfl, ?_, ⟨rfl, rfl, rfl⟩, ?_⟩
  · refine ⟨?_, hp.pos, ?_⟩
    · simp [hp.len]
    · intro i chain hi x hx
      by_cases h1 : t.hashFunction e % t.currentCapacity = i
      · rw [List.getElem?_set, if_pos h1, if_pos hlt] at hi
        rw [← Option.some.inj hi] at hx
        rcases List.mem_append.mp hx with hm | hm
        · rw [← h1]; exact hp.place _ _ hget x hm
        · rw [List.mem_singleton] at hm; rw [hm]; exact h1
      · rw [List.getElem?_set, if_neg h1] at hi
        exact hp.place i chain hi x hx
  · exact flatten_set_append _ _ _ _ hget

/-! ## The cases of `add` -/

theorem u32_of_lt {n : Nat} (h : n < 2 ^ 32) : u32 n = n := Nat.mod_eq_of_lt h

theorem placed_replicate (t : HashSet α) (n : Nat) (hn : n ≠ 0) :
    Placed { t with arr := List.replicate n [], currentCapacity := n } := by
  refine ⟨by simp, hn, ?_⟩
  intro i chain hi x hx
  simp only [List.getElem?_replicate] at hi
  split_ifs at hi
  rw [← Option.some.inj hi] at hx
  cases hx

/-- An `add` that does not resize: the element is appended to the chain of its
cell and the size goes up by one. -/
theorem add_no_resize (t : HashSet α) (e : α) (hp : Placed t) (hs : t.currentSize + 1 < 2 ^ 32)
    (hx : loadFactorExceeded (t.currentSize + 1) t.currentCapacity = false) :
    ∃ chain, t.arr[t.hashFunction e % t.currentCapacity]? = some chain ∧
      add t e = some { t with
        arr := t.arr.set (t.hashFunction e % t.currentCapacity) (chain ++ [e])
        currentSize := t.currentSize + 1 } := by
  have hlt : t.hashFunction e % t.currentCapacity < t.arr.length := by
    rw [hp.len]; exact Nat.mod_lt _ (Nat.pos_of_ne_zero hp.pos)
  have hget := List.getElem?_eq_getElem hlt
  refine ⟨_, hget, ?_⟩
  simp only [add, addHelper_eq t e _ hp.pos hget, Option.bind, u32_of_lt hs, hx]
  rfl

/-- A successful `addHelper` leaves a node in the cell of the element, inside the
first `currentCapacity` cells: the array that a resize rehashes holds a node. -/
theorem addHelper_stores_node (t t1 : HashSet α) (e : α) (h1 : addHelper t e = some t1) :
    t1.currentCapacity = t.currentCapacity ∧ t1.currentSize = t.currentSize ∧
      t.hashFunction e % t.currentCapacity < t1.currentCapacity ∧
      ∃ chain, t1.arr[t.hashFunction e % t.currentCapacity]? = some (chain ++ [e]) := by
  unfold addHelper at h1
  split_ifs at h1 with hc
  have hlt : t.hashFunction e % t.currentCapacity < t.currentCapacity :=
    Nat.mod_lt _ (Nat.pos_of_ne_zero hc)
  simp only at h1
  split at h1
  · cases h1
  · rename_i hg
    cases h1
    have hi := (List.getElem?_eq_some.mp hg).1
    exact ⟨rfl, rfl, hlt, [], by simp [List.getElem?_set, hi]⟩
  · rename_i p ps hg
    cases h1
    have hi := (List.getElem?_eq_some.mp hg).1
    exact ⟨rfl, rfl, hlt, p :: ps, by simp [List.getElem?_set, hi]⟩

/-- An `add` whose load-factor test succeeds reaches the resize and is undefined. -/
theorem add_resize_undefined (t : HashSet α) (e : α)
    (hx : loadFactorExceeded (u32 (t.currentSize + 1)) t.currentCapacity = true) :
    add t e = none := by
  unfold add
  cases h1 : addHelper t e with
  | none => rfl
  | some t1 =>
    obtain ⟨hc, hs, _⟩ := addHelper_stores_node t t1 e h1
    simp only [Option.bind, hs, hc, hx, if_true]

/-- An `add` that returns has met a failing load-factor test. -/
theorem add_some_not_exceeded (t t1 : HashSet α) (e : α) (ha : add t e = some t1) :
    loadFactorExceeded (u32 (t.currentSize + 1)) t.currentCapacity = false := by
  cases hx : loadFactorExceeded (u32 (t.currentSize + 1)) t.currentCapacity with
  | false => rfl
  | true => rw [add_resize_undefined t e hx] at ha; cases ha

/-! ## Tables built by `add` calls -/

theorem construct_inv (h : α → Nat) : Inv h [] (construct h) := by
  refine ⟨?_, rfl, rfl, ?_, rfl, by simp [construct, DEFAULT_CAPACITY]⟩
  · exact placed_replicate (construct h) 10 (by omega)
  · simp [construct]

theorem Inv.size_le {h : α → Nat} {ys : List α} {t : HashSet α} (hi : Inv h ys t) :
    t.currentSize ≤ 7 := by
  have h1 := hi.load
  have h2 := hi.cap
  unfold DEFAULT_CAPACITY at h2
  omega

/-- On a table built by `add` calls the load-factor test of the next `add`
succeeds exactly when the table holds seven elements. -/
theorem Inv.test {h : α → Nat} {ys : List α} {t : HashSet α} (hi : Inv h ys t) :
    loadFactorExceeded (u32 (t.currentSize + 1)) t.currentCapacity =
      decide (7 ≤ t.currentSize) := by
  have h1 := hi.size_le
  have h2 := hi.cap
  unfold DEFAULT_CAPACITY at h2
  rw [u32_of_lt (by omega), h2,
    loadFactorExceeded_small _ 10 (by norm_num) (by norm_num) (by omega)]
  exact decide_eq_decide.mpr (by omega)

theorem add_inv {h : α → Nat} {ys : List α} {t t1 : HashSet α} {e : α} (hi : Inv h ys t)
    (ha : add t e = some t1) : Inv h (ys ++ [e]) t1 := by
  have hs : t.currentSize + 1 < 2 ^ 32 := by have := hi.size_le; omega
  have hx := add_some_not_exceeded t t1 e ha
  have hlt : t.currentSize < 7 := by
    rw [hi.test] at hx
    have := of_decide_eq_false hx
    omega
  rw [u32_of_lt hs] at hx
  obtain ⟨chain, hget, h1⟩ := add_no_resize t e hi.placed hs hx
  obtain ⟨t2, _, _, h2, _, p2, f2, m2⟩ := addHelper_placed t e hi.placed
  rw [h1] at ha
  have ht : t1.arr = t2.arr ∧ t1.hashFunction = t.hashFunction ∧
      t1.currentCapacity = t.currentCapacity ∧ t1.currentSize = t.currentSize + 1 := by
    rw [addHelper_eq t e _ hi.placed.pos hget] at h2
    cases ha; cases h2; exact ⟨rfl, rfl, rfl, rfl⟩
  obtain ⟨e1, e2, e3, e4⟩ := ht
  refine ⟨?_, e2.trans hi.hash, e3.trans hi.cap, ?_, ?_, ?_⟩
  · refine ⟨?_, ?_, ?_⟩
    · rw [e1, e3, p2.len, f2.cap]
    · rw [e3]; exact hi.placed.pos
    · intro i c hic x hxc
      rw [e1] at hic
      have := p2.place i c hic x hxc
      rw [f2.hash, f2.cap] at this
      rw [e2, e3]; exact this
  · rw [e1]; exact m2.trans (List.Perm.append_right _ hi.perm)
  · rw [e4, hi.size]; simp
  · have := hi.cap
    unfold DEFAULT_CAPACITY at this
    rw [e4, e3, this]; omega

/-- From a table built by seven `add` calls the next `add` reaches the resize. -/
theorem add_undefined {h : α → Nat} {ys : List α} {t : HashSet α} (e : α) (hi : Inv h ys t)
    (hl : 7 ≤ ys.length) : add t e = none := by
  apply add_resize_undefined
  rw [hi.test]
  exact decide_eq_true (by rw [hi.size]; exact hl)

theorem addAll_inv {h : α → Nat} (xs : List α) {ys : List α} {t t1 : HashSet α}
    (hi : Inv h ys t) (ha : addAll t xs = some t1) : Inv h (ys ++ xs) t1 := by
  induction xs generalizing ys t with
  | nil =>
    simp only [addAll] at ha
    cases ha
    simpa using hi
  | cons x xs ih =>
    simp only [addAll] at ha
    cases h1 : add t x with
    | none => rw [h1] at ha; cases ha
    | some t2 =>
      rw [h1] at ha
      have := ih (add_inv hi h1) ha
      simpa using this

/-- Every table built from a fresh one by `add` calls satisfies the invariant. -/
theorem reachable_inv {h : α → Nat} {xs : List α} {t : HashSet α}
    (ha : addAll (construct h) xs = some t) : Inv h xs t := by
  simpa using addAll_inv xs (construct_inv h) ha

/-- A run of eight or more calls of `add` on a fresh table is undefined: the
eighth call reaches the resize. -/
theorem reachable_undefined (h : α → Nat) (xs : List α) (hl : 8 ≤ xs.length) :
    addAll (construct h) xs = none := by
  cases ha : addAll (construct h) xs with
  | none => rfl
  | some t =>
    have hi := reachable_inv ha
    have := hi.size_le
    rw [hi.size] at this
    omega

/-! ## The queries -/

theorem mem_chain_iff {t : HashSet α} (hp : Placed t) {i : Nat} {chain : List α}
    (hget : t.arr[i]? = some chain) (e : α) :
    e ∈ chain ↔ e ∈ t.arr.flatten ∧ i = t.hashFunction e % t.currentCapacity := by
  constructor
  · intro he
    refine ⟨List.mem_flatten.mpr ⟨chain, ?_, he⟩, (hp.place i chain hget e he).symm⟩
    obtain ⟨hi, hc⟩ := List.getElem?_eq_some.mp hget
    rw [← hc]; exact List.getElem_mem hi
  · rintro ⟨he, hi⟩
    obtain ⟨c, hc, hec⟩ := List.mem_flatten.mp he
    obtain ⟨j, hj, hjc⟩ := List.getElem_of_mem hc
    have hgj : t.arr[j]? = some c := by rw [List.getElem?_eq_getElem hj, hjc]
    have := hp.place j c hgj e hec
    rw [← hi] at this
    rw [this] at hget
    rw [hgj] at hget
    cases hget
    exact hec

theorem contains_placed [DecidableEq α] {t : HashSet α} (hp : Placed t) (e : α) :
    contains t e = some (decide (e ∈ t.arr.flatten)) := by
  have hlt : t.hashFunction e % t.currentCapacity < t.arr.length := by
    rw [hp.len]; exact Nat.mod_lt _ (Nat.pos_of_ne_zero hp.pos)
  have hget := List.getElem?_eq_getElem hlt
  have hiff := mem_chain_iff hp hget e
  have hd : decide (e ∈ t.arr[t.hashFunction e % t.currentCapacity]) = decide (e ∈ t.arr.flatten) := by
    apply decide_eq_decide.mpr
    rw [hiff]; simp
  unfold contains
  rw [if_neg hp.pos]
  simp only
  rw [hget]
  rw [← hd]
  cases hc : t.arr[t.hashFunction e % t.currentCapacity] with
  | nil => simp
  | cons p ps => simp only [List.elem_eq_mem]

theorem isElementAtIndex_placed [DecidableEq α] {t : HashSet α} (hp : Placed t) (e : α)
    (i : Nat) :
    isElementAtIndex t e i =
      some (decide (e ∈ t.arr.flatten ∧ i = t.hashFunction e % t.currentCapacity)) := by
  unfold isElementAtIndex
  by_cases hi : i ≥ t.currentCapacity
  · rw [if_pos hi]
    have : ¬ (e ∈ t.arr.flatten ∧ i = t.hashFunction e % t.currentCapacity) := by
      rintro ⟨_, h2⟩
      have := Nat.mod_lt (t.hashFunction e) (Nat.pos_of_ne_zero hp.pos)
      omega
    rw [decide_eq_false this]
  · rw [if_neg hi]
    have hlt : i < t.arr.length := by rw [hp.len]; omega
    have hget := List.getElem?_eq_getElem hlt
    rw [hget]
    simp only [List.elem_eq_mem]
    congr 1
    exact decide_eq_decide.mpr (mem_chain_iff hp hget e)

theorem mapM_option_eq_map {β γ : Type} (f : β → Option γ) (g : β → γ) (l : List β)
    (hf : ∀ x ∈ l, f x = some (g x)) : l.mapM f = some (l.map g) := by
  induction l with
  | nil => rfl
  | cons x xs ih =>
    rw [List.mapM_cons, hf x (List.mem_cons_self x xs), ih (fun y hy => hf y (List.mem_cons_of_mem x hy))]
    rfl

theorem length_le_length_flatten {l : List (List α)} {c : List α} (hc : c ∈ l) :
    c.length ≤ l.flatten.length := by
  induction l with
  | nil => cases hc
  | cons d ds ih =>
    rw [List.flatten_cons, List.length_append]
    rcases List.mem_cons.mp hc with h | h
    · rw [h]; omega
    · have := ih h; omega

theorem elementsAtIndex_placed {t : HashSet α} (hp : Placed t)
    (hs : t.arr.flatten.length ≤ INT_MAX) (i : Nat) (hi : i < t.currentCapacity) :
    elementsAtIndex t i = some (t.arr.getD i []).length := by
  have hlt : i < t.arr.length := by rw [hp.len]; exact hi
  have hget := List.getElem?_eq_getElem hlt
  unfold elementsAtIndex
  rw [if_neg (by omega)]
  rw [hget]
  have hle : t.arr[i].length ≤ INT_MAX :=
    le_trans (length_le_length_flatten (List.getElem_mem hlt)) hs
  simp only
  rw [if_neg (by omega)]
  simp [List.getD, hget]

theorem map_range_getD_length (l : List (List α)) :
    (List.range l.length).map (fun i => (l.getD i []).length) = l.map List.length := by
  apply List.ext_getElem
  · simp
  · intro n h1 h2
    simp only [List.length_map, List.length_range] at h1
    simp [List.getD, List.getElem?_eq_getElem h1]

theorem sum_elementsAtIndex_placed {t : HashSet α} (hp : Placed t)
    (hs : t.arr.flatten.length ≤ INT_MAX) :
    (List.range t.currentCapacity).mapM (elementsAtIndex t) =
        some (t.arr.map List.length) ∧
      (t.arr.map List.length).sum = t.arr.flatten.length := by
  constructor
  · rw [mapM_option_eq_map (elementsAtIndex t) (fun i => (t.arr.getD i []).length)]
    · rw [← hp.len, map_range_getD_length]
    · intro i hi
      exact elementsAtIndex_placed hp hs i (List.mem_range.mp hi)
  · rw [List.length_flatten]

/-- After a defined run of `add` calls `contains(e)` tells whether `e` was added. -/
theorem run_contains [DecidableEq α] {h : α → Nat} {xs : List α} {t : HashSet α}
    (ht : addAll (construct h) xs = some t) (e : α) :
    contains t e = some (decide (e ∈ xs)) := by
  have hi := reachable_inv ht
  rw [contains_placed hi.placed]
  exact congrArg some (decide_eq_decide.mpr hi.perm.mem_iff)

/-- After a defined run of `add` calls `isElementAtIndex(e, i)` tells whether `e`
was added and `i` is the cell of its hash value. -/
theorem run_isElementAtIndex [DecidableEq α] {h : α → Nat} {xs : List α} {t : HashSet α}
    (ht : addAll (construct h) xs = some t) (e : α) (i : Nat) :
    isElementAtIndex t e i = some (decide (e ∈ xs ∧ i = h e % t.currentCapacity)) := by
  have hi := reachable_inv ht
  rw [isElementAtIndex_placed hi.placed, hi.hash]
  exact congrArg some (decide_eq_decide.mpr (and_congr_left fun _ => hi.perm.mem_iff))

/-- After a defined run of `add` calls the counts `elementsAtIndex(i)` of the cells
sum to `size()`. -/
theorem run_sum_elementsAtIndex {h : α → Nat} {xs : List α} {t : HashSet α}
    (ht : addAll (construct h) xs = some t) :
    ∃ counts, (List.range t.currentCapacity).mapM (elementsAtIndex t) = some counts ∧
      counts.sum = size t := by
  have hi := reachable_inv ht
  have hlen : t.arr.flatten.length = t.currentSize := by rw [hi.perm.length_eq, hi.size]
  have hs : t.arr.flatten.length ≤ INT_MAX := by
    have := hi.size_le
    unfold INT_MAX
    omega
  obtain ⟨h1, h2⟩ := sum_elementsAtIndex_placed hi.placed hs
  exact ⟨_, h1, h2.trans hlen⟩

/-- A defined run of `add` calls leaves the capacity at `DEFAULT_CAPACITY` and the
size at the number of calls, which is at most seven. -/
theorem run_size_and_capacity {h : α → Nat} {xs : List α} {t : HashSet α}
    (ht : addAll (construct h) xs = some t) :
    size t = xs.length ∧ t.currentCapacity = DEFAULT_CAPACITY ∧ xs.length ≤ 7 := by
  have hi := reachable_inv ht
  have := hi.size_le
  rw [hi.size] at this
  exact ⟨hi.size, hi.cap, this⟩

/-! ## The heap model against the model with chains as values -/

/-- On a run with a two-node chain the heap model and the model with chains as
values give the same size, capacity and chains. -/
theorem heap_model_agrees_on_a_run :
    (addAllH [] (constructH fun x : Nat => x) [3, 13, 0, 1, 2, 4, 5]).bind
        (fun r => (chainsOf r.1 r.2.arr).map
          (fun chains => (r.2.currentSize, r.2.currentCapacity, chains))) =
      (addAll (construct fun x : Nat => x) [3, 13, 0, 1, 2, 4, 5]).map
        (fun t => (t.currentSize, t.currentCapacity, t.arr)) := by
  simp [addAllH, addH, addHelperH, constructH, chainsOf, chainElements, lastNode,
    addAll, add, addHelper, construct, DEFAULT_CAPACITY, u32, loadFactorExceeded_small]

/-! ## The eighth addition -/

theorem loadFactorExceeded_eight_ten : loadFactorExceeded 8 10 = true := by
  rw [loadFactorExceeded_small 8 10 (by norm_num) (by norm_num) (by norm_num)]
  rfl

/-- An `add` on a table of size 7 and capacity 10 reaches the resize. -/
theorem add_eighth_undefined (t : HashSet α) (e : α) (hs : t.currentSize = 7)
    (hc : t.currentCapacity = 10) : add t e = none := by
  apply add_resize_undefined
  rw [hs, hc, u32_of_lt (by norm_num)]
  exact loadFactorExceeded_eight_ten

/-- The table built by adding 0..6 to a fresh table with the identity hash. -/
theorem run_zero_to_six :
    addAll (construct fun x : Nat => x) [0, 1, 2, 3, 4, 5, 6] =
      some ⟨fun x => x, 7, 10, [[0], [1], [2], [3], [4], [5], [6], [], [], []]⟩ := by
  simp [addAll, add, addHelper, construct, DEFAULT_CAPACITY, u32, loadFactorExceeded_small]

/-! ## The claims -/

/-- C1: an `add` of an element the table already contains should have no effect.
The code appends a node and increments the size all the same: on the table built
by `add(1)` (size 1, `contains(1)` true), a second `add(1)` gives size 2. -/
theorem C1_add_of_present_element_grows_size :
    (addAll (construct fun x : Nat => x) [1]).map size = some 1 ∧
      (addAll (construct fun x : Nat => x) [1]).bind (fun t => contains t 1) = some true ∧
      ((addAll (construct fun x : Nat => x) [1]).bind (fun t => add t 1)).map size = some 2 ∧
      ((addAll (construct fun x : Nat => x) [1]).bind (fun t => add t 1)).bind
        (fun t => contains t 1) = some true := by
  simp [addAll, add, addHelper, construct, DEFAULT_CAPACITY, u32, size, contains,
    loadFactorExceeded_small]

/-- C2: membership should be right after every run of `add` calls, resizes
included.  The code's resize is undefined (it reads a cell of the array
`new Node * [newCapacity]` that was never written, and `p->next` after
`delete p`), and the eighth `add` on a fresh table reaches it: after adding 0..6
`contains(3)` is true, after adding 0..7 no answer of `contains` is defined. -/
theorem C2_membership_undefined_after_resize :
    loadFactorExceeded 8 10 = true ∧
      (addAll (construct fun x : Nat => x) [0, 1, 2, 3, 4, 5, 6]).bind
        (fun t => contains t 3) = some true ∧
      (addAll (construct fun x : Nat => x) [0, 1, 2, 3, 4, 5, 6, 7]).bind
        (fun t => contains t 3) = none := by
  refine ⟨loadFactorExceeded_eight_ten, ?_, ?_⟩
  · simp [addAll, add, addHelper, construct, DEFAULT_CAPACITY, u32, size,
      loadFactorExceeded_small, contains]
  · rw [reachable_undefined _ _ (by simp)]; rfl

/-- C4: every `add` should return with `5 * size ≤ 4 * capacity`, one doubling
being enough.  The bound holds after adding 0..6 (35 ≤ 40); the next `add` meets
a true load-factor test, and the resize that should double the capacity is
undefined, so that `add` returns no table on which the bound could hold. -/
theorem C4_doubling_add_is_undefined :
    (addAll (construct fun x : Nat => x) [0, 1, 2, 3, 4, 5, 6]).map
        (fun t => decide (5 * size t ≤ 4 * t.currentCapacity)) = some true ∧
      (addAll (construct fun x : Nat => x) [0, 1, 2, 3, 4, 5, 6]).map
        (fun t => loadFactorExceeded (u32 (t.currentSize + 1)) t.currentCapacity) =
          some true ∧
      (addAll (construct fun x : Nat => x) [0, 1, 2, 3, 4, 5, 6]).bind
        (fun t => add t 7) = none := by
  rw [run_zero_to_six]
  refine ⟨by simp [size], ?_, ?_⟩
  · show some (loadFactorExceeded (u32 (7 + 1)) 10) = some true
    rw [u32_of_lt (by norm_num)]
    exact congrArg some loadFactorExceeded_eight_ten
  · rw [Option.some_bind]
    exact add_eighth_undefined _ 7 rfl rfl

/-- C5: a resize should come only when the ratio of size to capacity exceeds 0.8,
so a capacity-10 table should keep its capacity on receiving its 8th element.
The code's test `((float)8 / (float)10) > 0.8` is true (the `float` quotient
`13421773 / 2 ^ 24` is above the `double` 0.8): after adding 0..6 the capacity is
still 10, and the `add` of the 8th element takes the resize branch, which doubles
`currentCapacity` and is then undefined. -/
theorem C5_resize_at_ratio_four_fifths :
    loadFactorExceeded 8 10 = true ∧
      (addAll (construct fun x : Nat => x) [0, 1, 2, 3, 4, 5, 6]).map
        (fun t => (size t, t.currentCapacity)) = some (7, 10) ∧
      (addAll (construct fun x : Nat => x) [0, 1, 2, 3, 4, 5, 6]).bind
        (fun t => add t 7) = none := by
  refine ⟨loadFactorExceeded_eight_ten, ?_, ?_⟩
  · simp [addAll, add, addHelper, construct, DEFAULT_CAPACITY, u32, size,
      loadFactorExceeded_small]
  · rw [run_zero_to_six, Option.some_bind]
    exact add_eighth_undefined _ 7 rfl rfl

/-- C6: every stored element should sit in the cell of its hash value, also after
a resize.  After adding 0..6 the element 3 sits in cell 3 and not in cell 4; the
eighth addition reaches the code's resize, which is undefined, and after adding
0..7 no answer of `isElementAtIndex` is defined. -/
theorem C6_placement_undefined_after_resize :
    (addAll (construct fun x : Nat => x) [0, 1, 2, 3, 4, 5, 6]).bind
        (fun t => isElementAtIndex t 3 3) = some true ∧
      (addAll (construct fun x : Nat => x) [0, 1, 2, 3, 4, 5, 6]).bind
        (fun t => isElementAtIndex t 3 4) = some false ∧
      (addAll (construct fun x : Nat => x) [0, 1, 2, 3, 4, 5, 6, 7]).bind
        (fun t => isElementAtIndex t 3 3) = none := by
  refine ⟨?_, ?_, ?_⟩
  · simp [addAll, add, addHelper, construct, DEFAULT_CAPACITY, u32, size,
      loadFactorExceeded_small, isElementAtIndex]
  · simp [addAll, add, addHelper, construct, DEFAULT_CAPACITY, u32, size,
      loadFactorExceeded_small, isElementAtIndex]
  · rw [reachable_undefined _ _ (by simp)]; rfl

/-- C7: the counts `elementsAtIndex(i)` should sum to `size()`, also right after
an `add` that resized.  After adding 0..6 the cells 0..6 hold one element each and
`size()` is 7; the eighth addition reaches the code's resize, which is undefined,
and after adding 0..7 neither the counts nor `size()` are defined. -/
theorem C7_counts_undefined_after_resize :
    (addAll (construct fun x : Nat => x) [0, 1, 2, 3, 4, 5, 6]).bind
        (fun t => elementsAtIndex t 6) = some 1 ∧
      (addAll (construct fun x : Nat => x) [0, 1, 2, 3, 4, 5, 6]).bind
        (fun t => elementsAtIndex t 7) = some 0 ∧
      (addAll (construct fun x : Nat => x) [0, 1, 2, 3, 4, 5, 6, 7]).bind
        (fun t => elementsAtIndex t 6) = none ∧
      (addAll (construct fun x : Nat => x) [0, 1, 2, 3, 4, 5, 6, 7]).map size = none := by
  refine ⟨?_, ?_, ?_, ?_⟩
  · simp [addAll, add, addHelper, construct, DEFAULT_CAPACITY, u32, size,
      loadFactorExceeded_small, elementsAtIndex, INT_MAX]
  · simp [addAll, add, addHelper, construct, DEFAULT_CAPACITY, u32, size,
      loadFactorExceeded_small, elementsAtIndex, INT_MAX]
  · rw [reachable_undefined _ _ (by simp)]; rfl
  · rw [reachable_undefined _ _ (by simp)]; rfl

/-- C8: the index queries are total on indices outside the array: for every table
and every index `i ≥ capacity`, `elementsAtIndex(i)` is 0 and
`isElementAtIndex(e, i)` is false. -/
theorem C8_index_out_of_range [DecidableEq α] (t : HashSet α) (e : α) (i : Nat)
    (hi : t.currentCapacity ≤ i) :
    elementsAtIndex t i = some 0 ∧ isElementAtIndex t e i = some false := by
  unfold elementsAtIndex isElementAtIndex
  exact ⟨if_pos hi, if_pos hi⟩

/-- The out-of-range theorem at index 1000 of a fresh table of capacity 10. -/
theorem C8_index_out_of_range_witness :
    (construct fun x : Nat => x).currentCapacity ≤ 1000 ∧
      elementsAtIndex (construct fun x : Nat => x) 1000 = some 0 ∧
      isElementAtIndex (construct fun x : Nat => x) 7 1000 = some false :=
  ⟨by decide, C8_index_out_of_range (construct fun x : Nat => x) 7 1000 (by decide)⟩

/-- C9: a freshly constructed table has size 0 and capacity `DEFAULT_CAPACITY`,
which is 10; `elementsAtIndex(i)` is 0 for every `i` and `contains(e)` is false for
every `e`. -/
theorem C9_fresh_table_is_empty [DecidableEq α] (h : α → Nat) (e : α) (i : Nat) :
    size (construct h) = 0 ∧ (construct h).currentCapacity = DEFAULT_CAPACITY ∧
      DEFAULT_CAPACITY = 10 ∧ elementsAtIndex (construct h) i = some 0 ∧
      contains (construct h) e = some false := by
  refine ⟨rfl, rfl, rfl, ?_, ?_⟩
  · unfold elementsAtIndex
    by_cases hi : i ≥ (construct h).currentCapacity
    · rw [if_pos hi]
    · rw [if_neg hi]
      have hlt : i < DEFAULT_CAPACITY := by simpa [construct] using hi
      have hg : (construct h).arr[i]? = some [] := by
        simp only [construct, List.getElem?_replicate, if_pos hlt]
      simp only [hg]
      simp [INT_MAX]
  · rw [contains_placed (construct_inv h).placed]
    simp [construct]

/-- C10: a copy should answer `contains` as its source does.  The code's copy
constructor installs the hash function that returns 0 and copies cell 0 of the
array alone: for the source built by `add(1)`, `contains(1)` is true on the
source and false on the copy, while the sizes agree. -/
theorem C10_copy_loses_membership :
    (addAll (construct fun x : Nat => x) [1]).bind (fun s => contains s 1) = some true ∧
      ((addAll (construct fun x : Nat => x) [1]).bind copyConstruct).bind
        (fun t => contains t 1) = some false ∧
      ((addAll (construct fun x : Nat => x) [1]).bind copyConstruct).map size = some 1 := by
  simp [addAll, add, addHelper, construct, DEFAULT_CAPACITY, u32, size, contains,
    loadFactorExceeded_small, copyConstruct, undefinedHashFunction]

/-- C11: a copy and its source should be independent.  The code's copy constructor
stores the head address of cell 0 of the source in the copy and allocates no
node, and the copy hashes every element to 0: for the source `s` built by
`add(0)`, the call `t.add(5)` on the copy `t` hangs the new node behind the node
of `s`, and `s.elementsAtIndex(0)` goes from 1 to 2 while `s.size()` stays 1. -/
theorem C11_copy_shares_nodes_with_source :
    (addH [] (constructH fun x : Nat => x) 0).bind
        (fun r => elementsAtIndexH r.1 r.2 0) = some 1 ∧
      (addH [] (constructH fun x : Nat => x) 0).bind
        (fun r => (copyConstructH r.2).bind
          (fun t => (addH r.1 t 5).bind (fun r2 => elementsAtIndexH r2.1 r.2 0))) = some 2 ∧
      (addH [] (constructH fun x : Nat => x) 0).map (fun r => r.2.currentSize) = some 1 := by
  simp [addH, addHelperH, constructH, copyConstructH, elementsAtIndexH, chainElements, lastNode,
    undefinedHashFunction, DEFAULT_CAPACITY, u32, loadFactorExceeded_small, INT_MAX]

/-- C12: the table move-constructed from `s` should answer `contains` as `s` did.
The code's move constructor installs the hash function that returns 0: for the
source built by `add(1)`, `contains(1)` is true on the source before the move and
false on the new table, while the size is handed over. -/
theorem C12_move_construction_loses_membership :
    (addAll (construct fun x : Nat => x) [1]).bind (fun s => contains s 1) = some true ∧
      (addAll (construct fun x : Nat => x) [1]).bind
        (fun s => contains (moveConstruct s).1 1) = some false ∧
      (addAll (construct fun x : Nat => x) [1]).map
        (fun s => (size (moveConstruct s).1, size s)) = some (1, 1) := by
  simp [addAll, add, addHelper, construct, DEFAULT_CAPACITY, u32, size, contains,
    loadFactorExceeded_small, moveConstruct, undefinedHashFunction]

/-- C13, as the code has it: after a move construction the source has size 0,
capacity 0 and a null array; `elementsAtIndex(i)` is 0 for every `i`, and `add` and
`contains` on it are undefined (the remainder by the capacity divides by zero). -/
theorem C13_moved_from_source_is_a_null_table [DecidableEq α] (s : HashSet α) (e : α) (i : Nat) :
    size (moveConstruct s).2 = 0 ∧ (moveConstruct s).2.currentCapacity = 0 ∧
      (moveConstruct s).2.arr = [] ∧ elementsAtIndex (moveConstruct s).2 i = some 0 ∧
      add (moveConstruct s).2 e = none ∧ contains (moveConstruct s).2 e = none := by
  refine ⟨rfl, rfl, rfl, ?_, ?_, ?_⟩
  · simp [elementsAtIndex, moveConstruct]
  · simp [add, addHelper, moveConstruct]
  · simp [contains, moveConstruct]

/-- C13, as the claim states it, fails on a freshly constructed table: after the
move the source has capacity 0, not a capacity of at least 1, and `add(7)` on it
is undefined. -/
theorem C13_moved_from_source_not_reusable :
    ¬ (1 ≤ (moveConstruct (construct fun x : Nat => x)).2.currentCapacity) ∧
      add (moveConstruct (construct fun x : Nat => x)).2 7 = none := by
  simp [add, addHelper, moveConstruct]

/-- C15: the capacity should be `10 * 2 ^ k`, doubled by the resizes and never
decreased.  After adding 0..6 the capacity is 10; the eighth addition is the
first that should double it, and it reaches the code's resize, which is
undefined: after adding 0..7 no capacity is defined. -/
theorem C15_capacity_undefined_after_resize :
    (addAll (construct fun x : Nat => x) [0, 1, 2, 3, 4, 5, 6]).map
        (fun t => t.currentCapacity) = some 10 ∧
      (addAll (construct fun x : Nat => x) [0, 1, 2, 3, 4, 5, 6, 7]).map
        (fun t => t.currentCapacity) = none := by
  refine ⟨?_, ?_⟩
  · simp [addAll, add, addHelper, construct, DEFAULT_CAPACITY, u32, size,
      loadFactorExceeded_small]
  · rw [reachable_undefined _ _ (by simp)]; rfl

/-- C16: no chain should hold an element twice.  The code's `add` appends without
looking: after `add(1)`, `add(1)` the chain of cell 1 is `[1, 1]` and
`elementsAtIndex(1)` is 2. -/
theorem C16_duplicate_in_chain :
    (addAll (construct fun x : Nat => x) [1, 1]).map (fun t => t.arr[1]?) =
        some (some [1, 1]) ∧
      ¬ ([1, 1] : List Nat).Nodup ∧
      (addAll (construct fun x : Nat => x) [1, 1]).bind (fun t => elementsAtIndex t 1) =
        some 2 := by
  refine ⟨?_, by decide, ?_⟩
  · simp [addAll, add, addHelper, construct, DEFAULT_CAPACITY, u32, loadFactorExceeded_small]
  · simp [addAll, add, addHelper, construct, DEFAULT_CAPACITY, u32, loadFactorExceeded_small,
      elementsAtIndex, INT_MAX]

/-- C17: a resize should re-insert every entry exactly once into an array of
twice the capacity.  The code's resize rehashes into `new Node * [newCapacity]`,
an array without initialiser, and releases the old nodes reading `p->next` after
`delete p`: on the table that holds 0..6, the old array handed to the rehash by
`add(7)` holds eight nodes, the load-factor test is true, and the `add` is
undefined. -/
theorem C17_rehash_is_undefined :
    (addAll (construct fun x : Nat => x) [0, 1, 2, 3, 4, 5, 6]).bind
        (fun t => (addHelper t 7).map (fun t1 => t1.arr)) =
          some [[0], [1], [2], [3], [4], [5], [6], [7], [], []] ∧
      loadFactorExceeded 8 10 = true ∧
      (addAll (construct fun x : Nat => x) [0, 1, 2, 3, 4, 5, 6]).bind
        (fun t => add t 7) = none := by
  rw [run_zero_to_six]
  refine ⟨by simp [addHelper], loadFactorExceeded_eight_ten, ?_⟩
  rw [Option.some_bind]
  exact add_eighth_undefined _ 7 rfl rfl

/-- C19: `contains` looks in the cell of the hash value alone: on every table of
capacity at least 1, `contains(e)` is `isElementAtIndex(e, h(e) mod c)`. -/
theorem C19_contains_is_lookup_in_hash_cell [DecidableEq α] (t : HashSet α) (e : α)
    (hc : 1 ≤ t.currentCapacity) :
    contains t e = isElementAtIndex t e (t.hashFunction e % t.currentCapacity) := by
  have hlt : t.hashFunction e % t.currentCapacity < t.currentCapacity := Nat.mod_lt _ hc
  unfold contains isElementAtIndex
  rw [if_neg (by omega), if_neg (by omega)]
  simp only
  cases hg : t.arr[t.hashFunction e % t.currentCapacity]? with
  | none => rfl
  | some chain =>
    cases chain with
    | nil => rfl
    | cons p ps => rfl

/-- The lookup theorem on a table of capacity 10 that keeps 5 in cell 0: cell 5 is
empty, so `contains(5)` is false although 5 sits in cell 0. -/
theorem C19_contains_is_lookup_in_hash_cell_witness :
    contains (⟨fun x => x, 1, 10, [[5], [], [], [], [], [], [], [], [], []]⟩ : HashSet Nat) 5 =
        isElementAtIndex
          (⟨fun x => x, 1, 10, [[5], [], [], [], [], [], [], [], [], []]⟩ : HashSet Nat) 5 (5 % 10) ∧
      contains (⟨fun x => x, 1, 10, [[5], [], [], [], [], [], [], [], [], []]⟩ : HashSet Nat) 5 =
        some false ∧
      isElementAtIndex
        (⟨fun x => x, 1, 10, [[5], [], [], [], [], [], [], [], [], []]⟩ : HashSet Nat) 5 0 =
        some true :=
  ⟨C19_contains_is_lookup_in_hash_cell
      (⟨fun x => x, 1, 10, [[5], [], [], [], [], [], [], [], [], []]⟩ : HashSet Nat) 5
      (by decide),
    by decide, by decide⟩

end HashSetModel
